import Mathlib

/-!
# Verification of `mm-channel-users` (src/main.go)

Shallow embedding of the core logic of the `mm-channel-users` tool:
the team resolver (`getTeamID`), the channel lister
(`getPublicChannelsForTeam`), the member collector (`getUsersInChannels`),
and the two serializers (`outputCSV`, `outputJSON`).

The remote Mattermost API is modelled as a function from request
parameters to a response: either a transport error (`err != nil` in Go)
or a status code together with a response body.  The unbounded `for`
loops of the Go code are modelled with an explicit fuel parameter; a
result of `none` means the fuel ran out (the loop would still be
running), and `some` carries the value the Go function returns.
Go's `(result, error)` return pairs are modelled as
`result × Option ApiError`, so a failure path returning `nil, err`
becomes `([], some e)` — keeping the fact that no partial result
accompanies an error visible in the embedding.
-/

set_option linter.unusedVariables false

namespace MMChannelUsers

/-- A channel as returned by the remote API (`model.Channel`); only the
fields the tool reads (`ch.Id`, `ch.Name`). -/
structure MMChannel where
  Id : String
  Name : String
deriving DecidableEq, Repr

/-- A user as returned by the remote API (`model.User`); only the fields
the tool reads. -/
structure MMUser where
  Id : String
  Username : String
  Email : String
  FirstName : String
  LastName : String
  Nickname : String
  DeleteAt : Int
  IsBot : Bool
deriving DecidableEq, Repr

/-- A team as returned by the remote API (`model.Team`); only `team.Id`
is read. -/
structure MMTeam where
  Id : String
deriving DecidableEq, Repr

/-- `Channel` struct of main.go: id and name of a public channel. -/
structure Channel where
  ID : String
  Name : String
deriving DecidableEq, Repr

/-- `User` struct of main.go: one output record per (channel, user). -/
structure User where
  ChannelName : String
  UserID : String
  Username : String
  Email : String
  FirstName : String
  LastName : String
  Nickname : String
deriving DecidableEq, Repr

/-- Outcome of one remote API call: `transportError` models `err != nil`;
`ok code body` models a response with the given HTTP status code and
decoded body. -/
inductive ApiResult (α : Type) where
  | transportError : ApiResult α
  | ok (statusCode : Nat) (body : α) : ApiResult α
deriving DecidableEq, Repr

/-- The two error shapes the Go functions return: the underlying
transport error, or `errors.New("bad HTTP response")` on a non-200
status. -/
inductive ApiError where
  | transport : ApiError
  | badStatus : ApiError
deriving DecidableEq, Repr

/-- `getTeamID` of main.go: one `GetTeamByName` call; on transport error
returns `("", err)`, on a status other than 200 returns
`("", bad HTTP response)`, otherwise returns `(team.Id, nil)`. -/
def getTeamID : ApiResult MMTeam → String × Option ApiError
  | .transportError => ("", some .transport)
  | .ok code team => if code ≠ 200 then ("", some .badStatus) else (team.Id, none)

/-- The conversion main.go applies to each fetched channel:
`Channel{ID: ch.Id, Name: ch.Name}`. -/
def channelOf (ch : MMChannel) : Channel := ⟨ch.Id, ch.Name⟩

/-- The pagination loop of `getPublicChannelsForTeam`.  `api page` is the
response to `GetPublicChannelsForTeam(ctx, teamID, page, 50, "")`.
Carries the accumulator `acc` (`allChannels`) and the number of page
requests issued so far (`reqs`); returns `(allChannels, nil)` on the
first empty page, `(nil, err)` on failure, together with the total
request count.  `none` means the fuel ran out. -/
def listerLoop (api : Nat → ApiResult (List MMChannel)) :
    Nat → Nat → List Channel → Nat → Option (List Channel × Option ApiError × Nat)
  | 0, _, _, _ => none
  | fuel + 1, page, acc, reqs =>
    match api page with
    | .transportError => some ([], some .transport, reqs + 1)
    | .ok code channels =>
      if code ≠ 200 then some ([], some .badStatus, reqs + 1)
      else if channels.isEmpty then some (acc, none, reqs + 1)
      else listerLoop api fuel (page + 1) (acc ++ channels.map channelOf) (reqs + 1)

/-- `getPublicChannelsForTeam` of main.go: the loop started at page 0
with an empty accumulator. -/
def getPublicChannelsForTeam (api : Nat → ApiResult (List MMChannel)) (fuel : Nat) :
    Option (List Channel × Option ApiError × Nat) :=
  listerLoop api fuel 0 [] 0

/-- A remote channel-page sequence in which every request succeeds with
status 200: page `n` returns the `n`-th element of `ps`, and every page
past the end of `ps` is empty. -/
def pagesApi (ps : List (List MMChannel)) : Nat → ApiResult (List MMChannel) :=
  fun n => .ok 200 (ps.getD n [])

theorem pagesApi_eq (ps : List (List MMChannel)) (n : Nat) :
    pagesApi ps n = .ok 200 (ps.getD n []) := rfl

/-- Main lemma for the success path of the lister: if, from page `page`
on, the remote returns the pages of `ps` (all non-empty, status 200)
followed by an empty page, the loop returns the accumulator extended by
all converted channels and issues `ps.length + 1` further requests. -/
theorem listerLoop_ok (ps : List (List MMChannel)) :
    ∀ (api : Nat → ApiResult (List MMChannel)) (page : Nat) (acc : List Channel)
      (reqs fuel : Nat),
    (∀ i, api (page + i) = .ok 200 (ps.getD i [])) →
    (∀ p ∈ ps, p ≠ []) → ps.length < fuel →
    listerLoop api fuel page acc reqs =
      some (acc ++ (ps.map (fun p => p.map channelOf)).flatten, none, reqs + ps.length + 1) := by
  induction ps with
  | nil =>
    intro api page acc reqs fuel hapi hne hfuel
    match fuel, hfuel with
    | fuel + 1, _ =>
      have h0 : api page = .ok 200 [] := by simpa using hapi 0
      simp [listerLoop, h0]
  | cons p rest ih =>
    intro api page acc reqs fuel hapi hne hfuel
    match fuel, hfuel with
    | fuel + 1, hfuel =>
      have h0 : api page = .ok 200 p := by simpa using hapi 0
      have hp : p ≠ [] := hne p (by simp)
      have hstep := ih api (page + 1) (acc ++ p.map channelOf) (reqs + 1) fuel
        (fun i => by
          have := hapi (i + 1)
          simpa [Nat.add_assoc, Nat.add_comm 1 i] using this)
        (fun q hq => hne q (by simp [hq]))
        (by simpa using Nat.lt_of_succ_lt_succ hfuel)
      simp only [listerLoop, h0]
      rw [if_neg (by simp)]
      rw [if_neg (by simp [hp])]
      rw [hstep]
      simp [List.append_assoc]
      omega

/-- C1: starting at page 0 with page size 50, for a remote whose pages
are the non-empty pages of `ps` followed by empty pages, the lister
returns exactly the concatenation of all pages in arrival order, keeping
only each channel's id and name, and issues exactly `ps.length + 1` page
requests; page `ps.length` is the first empty page. -/
theorem lister_concat_and_request_count (ps : List (List MMChannel)) (fuel : Nat)
    (hsize : ∀ p ∈ ps, p.length ≤ 50)
    (hne : ∀ p ∈ ps, p ≠ [])
    (hfuel : ps.length < fuel) :
    getPublicChannelsForTeam (pagesApi ps) fuel =
      some ((ps.map (fun p => p.map channelOf)).flatten, none, ps.length + 1) ∧
    pagesApi ps ps.length = .ok 200 [] ∧
    (∀ i < ps.length, ∃ body, pagesApi ps i = .ok 200 body ∧ body ≠ []) := by
  refine ⟨?_, ?_, ?_⟩
  · have h := listerLoop_ok ps (pagesApi ps) 0 [] 0 fuel
      (fun i => by simp [pagesApi]) hne hfuel
    simpa [getPublicChannelsForTeam] using h
  · simp [pagesApi]
  · intro i hi
    exact ⟨ps.getD i [], rfl, by
      rw [List.getD_eq_getElem ps [] hi]
      exact hne ps[i] (List.getElem_mem hi)⟩

/-- Concrete page table used to witness C1: two pages, three channels. -/
def c1Pages : List (List MMChannel) :=
  [[⟨"c1", "general"⟩, ⟨"c2", "random"⟩], [⟨"c3", "dev"⟩]]

/-- Witness for C1 at a concrete two-page input. -/
theorem lister_concat_and_request_count_witness :
    getPublicChannelsForTeam (pagesApi c1Pages) 3 =
      some ((c1Pages.map (fun p => p.map channelOf)).flatten, none, c1Pages.length + 1) :=
  (lister_concat_and_request_count c1Pages 3 (by decide) (by decide) (by decide)).1

/-- The per-user filter of the inner loop body of `getUsersInChannels`:
skip (`continue`) if `user.DeleteAt != 0`; skip if `user.IsBot` and bots
are not included; otherwise keep. -/
def keepUser (includeBots : Bool) (u : MMUser) : Bool :=
  if u.DeleteAt ≠ 0 then false
  else if u.IsBot && !includeBots then false
  else true

/-- The record main.go appends for a kept user: the owning channel's
name plus the account's id, username, email, first, last and nickname. -/
def convertUser (channelName : String) (u : MMUser) : User :=
  ⟨channelName, u.Id, u.Username, u.Email, u.FirstName, u.LastName, u.Nickname⟩

/-- Effect of the inner `for _, user := range users` loop body on one
page: keep the non-skipped users, converted to output records. -/
def convertUsers (channelName : String) (includeBots : Bool) (us : List MMUser) : List User :=
  (us.filter (keepUser includeBots)).map (convertUser channelName)

/-- The per-channel pagination loop of `getUsersInChannels`.
`api id page` is the response to `GetUsersInChannel(ctx, id, page, 50, "")`.
On failure returns `(nil, err)`; on the first empty page returns the
accumulator (shared across channels in the Go code) with no error. -/
def usersLoop (api : String → Nat → ApiResult (List MMUser)) (includeBots : Bool)
    (ch : Channel) : Nat → Nat → List User → Option (List User × Option ApiError)
  | 0, _, _ => none
  | fuel + 1, page, acc =>
    match api ch.ID page with
    | .transportError => some ([], some .transport)
    | .ok code users =>
      if code ≠ 200 then some ([], some .badStatus)
      else if users.isEmpty then some (acc, none)
      else usersLoop api includeBots ch fuel (page + 1)
        (acc ++ convertUsers ch.Name includeBots users)

/-- The outer `for _, channel := range channels` loop of
`getUsersInChannels`: one inner pagination loop per channel, threading
the shared `allUsers` accumulator; any inner failure aborts the whole
collection with `(nil, err)`. -/
def getUsersInChannels (api : String → Nat → ApiResult (List MMUser)) (includeBots : Bool)
    (fuel : Nat) : List Channel → List User → Option (List User × Option ApiError)
  | [], acc => some (acc, none)
  | ch :: rest, acc =>
    match usersLoop api includeBots ch fuel 0 acc with
    | none => none
    | some (acc', none) => getUsersInChannels api includeBots fuel rest acc'
    | some (res, some e) => some (res, some e)

/-- `getUsersInChannels` of main.go, started with the empty `allUsers`
accumulator. -/
def collectUsers (api : String → Nat → ApiResult (List MMUser)) (includeBots : Bool)
    (channels : List Channel) (fuel : Nat) : Option (List User × Option ApiError) :=
  getUsersInChannels api includeBots fuel channels []

/-- A per-channel membership table in which every request succeeds with
status 200: page `n` of channel `id` returns the `n`-th element of
`tbl id`, and every page past the end is empty. -/
def usersTableApi (tbl : String → List (List MMUser)) :
    String → Nat → ApiResult (List MMUser) :=
  fun id page => .ok 200 ((tbl id).getD page [])

/-- Success path of the inner membership loop: if, from `page` on, the
channel's pages are those of `ps` (all non-empty, status 200) followed
by an empty page, the loop extends the accumulator by the converted,
filtered users of every page in arrival order. -/
theorem usersLoop_ok (ps : List (List MMUser)) :
    ∀ (api : String → Nat → ApiResult (List MMUser)) (incl : Bool) (ch : Channel)
      (page : Nat) (acc : List User) (fuel : Nat),
    (∀ i, api ch.ID (page + i) = .ok 200 (ps.getD i [])) →
    (∀ p ∈ ps, p ≠ []) → ps.length < fuel →
    usersLoop api incl ch fuel page acc =
      some (acc ++ (ps.map (convertUsers ch.Name incl)).flatten, none) := by
  induction ps with
  | nil =>
    intro api incl ch page acc fuel hapi hne hfuel
    match fuel, hfuel with
    | fuel + 1, _ =>
      have h0 : api ch.ID page = .ok 200 [] := by simpa using hapi 0
      simp [usersLoop, h0]
  | cons p rest ih =>
    intro api incl ch page acc fuel hapi hne hfuel
    match fuel, hfuel with
    | fuel + 1, hfuel =>
      have h0 : api ch.ID page = .ok 200 p := by simpa using hapi 0
      have hp : p ≠ [] := hne p (by simp)
      have hstep := ih api incl ch (page + 1) (acc ++ convertUsers ch.Name incl p) fuel
        (fun i => by
          have := hapi (i + 1)
          simpa [Nat.add_assoc, Nat.add_comm 1 i] using this)
        (fun q hq => hne q (by simp [hq]))
        (by simpa using Nat.lt_of_succ_lt_succ hfuel)
      simp only [usersLoop, h0]
      rw [if_neg (by simp)]
      rw [if_neg (by simp [hp])]
      rw [hstep]
      simp [List.append_assoc]

/-- Success path of the whole collector over a channel list whose
membership pages all succeed: the accumulator is extended, channel by
channel in lister order, by the converted users of all pages. -/
theorem getUsersInChannels_ok (channels : List Channel) :
    ∀ (api : String → Nat → ApiResult (List MMUser)) (tbl : String → List (List MMUser))
      (incl : Bool) (fuel : Nat) (acc : List User),
    (∀ c ∈ channels, ∀ i, api c.ID i = .ok 200 ((tbl c.ID).getD i [])) →
    (∀ c ∈ channels, ∀ p ∈ tbl c.ID, p ≠ []) →
    (∀ c ∈ channels, (tbl c.ID).length < fuel) →
    getUsersInChannels api incl fuel channels acc =
      some (acc ++ (channels.map
        (fun c => ((tbl c.ID).map (convertUsers c.Name incl)).flatten)).flatten, none) := by
  induction channels with
  | nil =>
    intro api tbl incl fuel acc hapi hne hfuel
    simp [getUsersInChannels]
  | cons ch rest ih =>
    intro api tbl incl fuel acc hapi hne hfuel
    have hinner := usersLoop_ok (tbl ch.ID) api incl ch 0 acc fuel
      (fun i => by simpa using hapi ch (by simp) i)
      (hne ch (by simp)) (hfuel ch (by simp))
    rw [getUsersInChannels, hinner]
    dsimp only
    rw [ih api tbl incl fuel _ (fun c hc => hapi c (by simp [hc]))
      (fun c hc => hne c (by simp [hc])) (fun c hc => hfuel c (by simp [hc]))]
    simp [List.append_assoc]

/-- A kept user is not deactivated, and is a bot only if bots were
requested. -/
theorem keepUser_spec (incl : Bool) (u : MMUser) (h : keepUser incl u = true) :
    u.DeleteAt = 0 ∧ (u.IsBot = true → incl = true) := by
  unfold keepUser at h
  by_cases hd : u.DeleteAt = 0
  · refine ⟨hd, fun hb => ?_⟩
    rw [if_neg (by simp [hd])] at h
    cases incl with
    | true => rfl
    | false => simp [hb] at h
  · simp [hd] at h

/-- Every record produced by one channel's pagination loop is either
inherited from the accumulator or converted from a kept user of some
returned page of that channel. -/
theorem usersLoop_mem (api : String → Nat → ApiResult (List MMUser)) (incl : Bool)
    (ch : Channel) :
    ∀ (fuel page : Nat) (acc out : List User) (oe : Option ApiError),
    usersLoop api incl ch fuel page acc = some (out, oe) →
    ∀ u ∈ out, u ∈ acc ∨ ∃ page' code body mmu,
      api ch.ID page' = .ok code body ∧ mmu ∈ body ∧ keepUser incl mmu = true ∧
      u = convertUser ch.Name mmu := by
  intro fuel
  induction fuel with
  | zero => intro page acc out oe h; simp [usersLoop] at h
  | succ fuel ih =>
    intro page acc out oe h u hu
    rw [usersLoop] at h
    match hapi : api ch.ID page with
    | .transportError =>
      rw [hapi] at h
      simp at h
      simp [h.1] at hu
    | .ok code users =>
      rw [hapi] at h
      dsimp only at h
      by_cases hc : code = 200
      · rw [if_neg (by simp [hc])] at h
        by_cases he : users.isEmpty
        · rw [if_pos he] at h
          simp at h
          rw [← h.1] at hu
          exact Or.inl hu
        · rw [if_neg he] at h
          have := ih (page + 1) (acc ++ convertUsers ch.Name incl users) out oe h u hu
          rcases this with hacc | hprov
          · rcases List.mem_append.mp hacc with h1 | h2
            · exact Or.inl h1
            · rcases List.mem_map.mp h2 with ⟨mmu, hmmu, heq⟩
              rcases List.mem_filter.mp hmmu with ⟨hmem, hkeep⟩
              exact Or.inr ⟨page, code, users, mmu, hapi, hmem, hkeep, heq.symm⟩
          · exact Or.inr hprov
      · rw [if_pos (by simp [hc])] at h
        simp at h
        simp [h.1] at hu

/-- Every record produced by the collector is converted from a kept user
of some page of some channel in the list (or inherited from the starting
accumulator). -/
theorem getUsersInChannels_mem (api : String → Nat → ApiResult (List MMUser))
    (incl : Bool) (fuel : Nat) :
    ∀ (channels : List Channel) (acc out : List User) (oe : Option ApiError),
    getUsersInChannels api incl fuel channels acc = some (out, oe) →
    ∀ u ∈ out, u ∈ acc ∨ ∃ ch ∈ channels, ∃ page code body mmu,
      api ch.ID page = .ok code body ∧ mmu ∈ body ∧ keepUser incl mmu = true ∧
      u = convertUser ch.Name mmu := by
  intro channels
  induction channels with
  | nil =>
    intro acc out oe h u hu
    simp [getUsersInChannels] at h
    rw [← h.1] at hu
    exact Or.inl hu
  | cons ch rest ih =>
    intro acc out oe h u hu
    rw [getUsersInChannels] at h
    match hinner : usersLoop api incl ch fuel 0 acc with
    | none => rw [hinner] at h; simp at h
    | some (acc', none) =>
      rw [hinner] at h
      dsimp only at h
      have := ih acc' out oe h u hu
      rcases this with hacc' | ⟨c, hc, prov⟩
      · have := usersLoop_mem api incl ch fuel 0 acc acc' none hinner u hacc'
        rcases this with h1 | ⟨page, code, body, mmu, hprov⟩
        · exact Or.inl h1
        · exact Or.inr ⟨ch, by simp, page, code, body, mmu, hprov⟩
      · exact Or.inr ⟨c, by simp [hc], prov⟩
    | some (res, some e) =>
      rw [hinner] at h
      dsimp only at h
      have hre : res = out ∧ some e = oe := by
        have := Option.some.inj h
        exact ⟨congrArg Prod.fst this, congrArg Prod.snd this⟩
      rw [hre.1] at hinner
      have := usersLoop_mem api incl ch fuel 0 acc out (some e) hinner u hu
      rcases this with h1 | ⟨page, code, body, mmu, hprov⟩
      · exact Or.inl h1
      · exact Or.inr ⟨ch, by simp, page, code, body, mmu, hprov⟩

/-- On the lister's failure path the returned channel list is `nil`. -/
theorem listerLoop_error_nil (api : Nat → ApiResult (List MMChannel)) :
    ∀ (fuel page : Nat) (acc : List Channel) (reqs : Nat) (out : List Channel)
      (e : ApiError) (n : Nat),
    listerLoop api fuel page acc reqs = some (out, some e, n) → out = [] := by
  intro fuel
  induction fuel with
  | zero => intro page acc reqs out e n h; simp [listerLoop] at h
  | succ fuel ih =>
    intro page acc reqs out e n h
    rw [listerLoop] at h
    match hapi : api page with
    | .transportError =>
      rw [hapi] at h
      simp at h
      exact h.1
    | .ok code channels =>
      rw [hapi] at h
      dsimp only at h
      by_cases hc : code = 200
      · rw [if_neg (by simp [hc])] at h
        by_cases he : channels.isEmpty
        · rw [if_pos he] at h; simp at h
        · rw [if_neg he] at h
          exact ih (page + 1) (acc ++ channels.map channelOf) (reqs + 1) out e n h
      · rw [if_pos (by simp [hc])] at h
        simp at h
        exact h.1

/-- On the inner membership loop's failure path the returned record list
is `nil`. -/
theorem usersLoop_error_nil (api : String → Nat → ApiResult (List MMUser)) (incl : Bool)
    (ch : Channel) :
    ∀ (fuel page : Nat) (acc out : List User) (e : ApiError),
    usersLoop api incl ch fuel page acc = some (out, some e) → out = [] := by
  intro fuel
  induction fuel with
  | zero => intro page acc out e h; simp [usersLoop] at h
  | succ fuel ih =>
    intro page acc out e h
    rw [usersLoop] at h
    match hapi : api ch.ID page with
    | .transportError =>
      rw [hapi] at h
      simp at h
      exact h.1
    | .ok code users =>
      rw [hapi] at h
      dsimp only at h
      by_cases hc : code = 200
      · rw [if_neg (by simp [hc])] at h
        by_cases he : users.isEmpty
        · rw [if_pos he] at h; simp at h
        · rw [if_neg he] at h
          exact ih (page + 1) (acc ++ convertUsers ch.Name incl users) out e h
      · rw [if_pos (by simp [hc])] at h
        simp at h
        exact h.1

/-- On the collector's failure path the returned record list is `nil`:
records accumulated from earlier channels are discarded. -/
theorem getUsersInChannels_error_nil (api : String → Nat → ApiResult (List MMUser))
    (incl : Bool) (fuel : Nat) :
    ∀ (channels : List Channel) (acc out : List User) (e : ApiError),
    getUsersInChannels api incl fuel channels acc = some (out, some e) → out = [] := by
  intro channels
  induction channels with
  | nil => intro acc out e h; simp [getUsersInChannels] at h
  | cons ch rest ih =>
    intro acc out e h
    rw [getUsersInChannels] at h
    match hinner : usersLoop api incl ch fuel 0 acc with
    | none => rw [hinner] at h; simp at h
    | some (acc', none) =>
      rw [hinner] at h
      dsimp only at h
      exact ih acc' out e h
    | some (res, some e') =>
      rw [hinner] at h
      dsimp only at h
      have hre := Option.some.inj h
      have : res = out := congrArg Prod.fst hre
      rw [this] at hinner
      have he' : some e' = some e := congrArg Prod.snd hre
      exact usersLoop_error_nil api incl ch fuel 0 acc out e' hinner

/-- If pages `page..page+j-1` succeed non-empty and the request for page
`page+j` fails (transport error or non-200 status), the lister loop
returns `(nil, err)` after `j + 1` further requests. -/
theorem listerLoop_fail (j : Nat) :
    ∀ (api : Nat → ApiResult (List MMChannel)) (page : Nat) (acc : List Channel)
      (reqs fuel : Nat),
    (∀ i < j, ∃ body, api (page + i) = .ok 200 body ∧ body ≠ []) →
    (api (page + j) = .transportError ∨
      ∃ code body, api (page + j) = .ok code body ∧ code ≠ 200) →
    j < fuel →
    ∃ e, listerLoop api fuel page acc reqs = some ([], some e, reqs + j + 1) := by
  induction j with
  | zero =>
    intro api page acc reqs fuel hpre hfail hfuel
    match fuel, hfuel with
    | fuel + 1, _ =>
      rcases hfail with ht | ⟨code, body, heq, hcode⟩
      · refine ⟨.transport, ?_⟩
        rw [listerLoop]
        rw [show api page = .transportError from by simpa using ht]
      · refine ⟨.badStatus, ?_⟩
        rw [listerLoop]
        rw [show api page = .ok code body from by simpa using heq]
        dsimp only
        rw [if_pos (by simp [hcode])]
  | succ j ih =>
    intro api page acc reqs fuel hpre hfail hfuel
    match fuel, hfuel with
    | fuel + 1, hfuel =>
      rcases hpre 0 (Nat.succ_pos j) with ⟨body, heq, hbody⟩
      have h0 : api page = .ok 200 body := by simpa using heq
      have hstep := ih api (page + 1) (acc ++ body.map channelOf) (reqs + 1) fuel
        (fun i hi => by
          rcases hpre (i + 1) (Nat.succ_lt_succ hi) with ⟨b, hb, hbne⟩
          exact ⟨b, by
            rw [show page + 1 + i = page + (i + 1) from by omega]
            exact hb, hbne⟩)
        (by
          rw [show page + 1 + j = page + (j + 1) from by omega]
          exact hfail)
        (Nat.lt_of_succ_lt_succ hfuel)
      rcases hstep with ⟨e, he⟩
      refine ⟨e, ?_⟩
      rw [listerLoop, h0]
      dsimp only
      rw [if_neg (by simp)]
      rw [if_neg (by simp [hbody])]
      rw [he]
      have : reqs + 1 + j + 1 = reqs + (j + 1) + 1 := by omega
      rw [this]

/-- If pages `page..page+j-1` of a channel succeed non-empty and the
request for page `page+j` fails, the inner membership loop returns
`(nil, err)`. -/
theorem usersLoop_fail (j : Nat) :
    ∀ (api : String → Nat → ApiResult (List MMUser)) (incl : Bool) (ch : Channel)
      (page : Nat) (acc : List User) (fuel : Nat),
    (∀ i < j, ∃ body, api ch.ID (page + i) = .ok 200 body ∧ body ≠ []) →
    (api ch.ID (page + j) = .transportError ∨
      ∃ code body, api ch.ID (page + j) = .ok code body ∧ code ≠ 200) →
    j < fuel →
    ∃ e, usersLoop api incl ch fuel page acc = some ([], some e) := by
  induction j with
  | zero =>
    intro api incl ch page acc fuel hpre hfail hfuel
    match fuel, hfuel with
    | fuel + 1, _ =>
      rcases hfail with ht | ⟨code, body, heq, hcode⟩
      · refine ⟨.transport, ?_⟩
        rw [usersLoop]
        rw [show api ch.ID page = .transportError from by simpa using ht]
      · refine ⟨.badStatus, ?_⟩
        rw [usersLoop]
        rw [show api ch.ID page = .ok code body from by simpa using heq]
        dsimp only
        rw [if_pos (by simp [hcode])]
  | succ j ih =>
    intro api incl ch page acc fuel hpre hfail hfuel
    match fuel, hfuel with
    | fuel + 1, hfuel =>
      rcases hpre 0 (Nat.succ_pos j) with ⟨body, heq, hbody⟩
      have h0 : api ch.ID page = .ok 200 body := by simpa using heq
      have hstep := ih api incl ch (page + 1) (acc ++ convertUsers ch.Name incl body) fuel
        (fun i hi => by
          rcases hpre (i + 1) (Nat.succ_lt_succ hi) with ⟨b, hb, hbne⟩
          exact ⟨b, by
            rw [show page + 1 + i = page + (i + 1) from by omega]
            exact hb, hbne⟩)
        (by
          rw [show page + 1 + j = page + (j + 1) from by omega]
          exact hfail)
        (Nat.lt_of_succ_lt_succ hfuel)
      rcases hstep with ⟨e, he⟩
      refine ⟨e, ?_⟩
      rw [usersLoop, h0]
      dsimp only
      rw [if_neg (by simp)]
      rw [if_neg (by simp [hbody])]
      rw [he]

/-- If the channels before `ch` all paginate successfully and `ch`'s
pagination fails at page `j`, the whole collector returns `(nil, err)`:
the records collected from the earlier channels are discarded. -/
theorem getUsersInChannels_fail (cs1 : List Channel) :
    ∀ (api : String → Nat → ApiResult (List MMUser)) (tbl : String → List (List MMUser))
      (incl : Bool) (fuel : Nat) (acc : List User) (ch : Channel) (cs2 : List Channel)
      (j : Nat),
    (∀ c ∈ cs1, ∀ i, api c.ID i = .ok 200 ((tbl c.ID).getD i [])) →
    (∀ c ∈ cs1, ∀ p ∈ tbl c.ID, p ≠ []) →
    (∀ c ∈ cs1, (tbl c.ID).length < fuel) →
    (∀ i < j, ∃ body, api ch.ID i = .ok 200 body ∧ body ≠ []) →
    (api ch.ID j = .transportError ∨
      ∃ code body, api ch.ID j = .ok code body ∧ code ≠ 200) →
    j < fuel →
    ∃ e, getUsersInChannels api incl fuel (cs1 ++ ch :: cs2) acc = some ([], some e) := by
  induction cs1 with
  | nil =>
    intro api tbl incl fuel acc ch cs2 j hapi hne hfuel hpre hfail hjfuel
    have hinner := usersLoop_fail j api incl ch 0 acc fuel
      (fun i hi => by simpa using hpre i hi)
      (by simpa using hfail) hjfuel
    rcases hinner with ⟨e, he⟩
    refine ⟨e, ?_⟩
    rw [List.nil_append, getUsersInChannels, he]
  | cons c cs1' ih =>
    intro api tbl incl fuel acc ch cs2 j hapi hne hfuel hpre hfail hjfuel
    have hinner := usersLoop_ok (tbl c.ID) api incl c 0 acc fuel
      (fun i => by simpa using hapi c (by simp) i)
      (hne c (by simp)) (hfuel c (by simp))
    have hrest := ih api tbl incl fuel
      (acc ++ ((tbl c.ID).map (convertUsers c.Name incl)).flatten) ch cs2 j
      (fun c' hc' => hapi c' (by simp [hc']))
      (fun c' hc' => hne c' (by simp [hc']))
      (fun c' hc' => hfuel c' (by simp [hc']))
      hpre hfail hjfuel
    rcases hrest with ⟨e, he⟩
    refine ⟨e, ?_⟩
    rw [List.cons_append, getUsersInChannels, hinner]
    dsimp only
    exact he

/-- A page index at which the channel-pagination loop stops: the request
fails (transport error or non-200 status) or returns zero channels. -/
def pageStops (api : Nat → ApiResult (List MMChannel)) (n : Nat) : Prop :=
  api n = .transportError ∨
    ∃ code body, api n = .ok code body ∧ (code ≠ 200 ∨ body = [])

/-- If no page ever stops the loop, the loop runs forever: it returns
`none` for every amount of fuel. -/
theorem listerLoop_none_of_no_stop (api : Nat → ApiResult (List MMChannel))
    (h : ∀ n, ¬ pageStops api n) :
    ∀ (fuel page : Nat) (acc : List Channel) (reqs : Nat),
    listerLoop api fuel page acc reqs = none := by
  intro fuel
  induction fuel with
  | zero => intro page acc reqs; rfl
  | succ fuel ih =>
    intro page acc reqs
    rw [listerLoop]
    match hapi : api page with
    | .transportError => exact absurd (Or.inl hapi) (h page)
    | .ok code body =>
      dsimp only
      by_cases hc : code = 200
      · by_cases hb : body = []
        · exact absurd (Or.inr ⟨code, body, hapi, Or.inr hb⟩) (h page)
        · rw [if_neg (by simp [hc])]
          rw [if_neg (by simp [List.isEmpty_iff, hb])]
          exact ih (page + 1) (acc ++ body.map channelOf) (reqs + 1)
      · exact absurd (Or.inr ⟨code, body, hapi, Or.inl hc⟩) (h page)

/-- If page `page + j` stops the loop, fuel `j + 1` suffices for the
loop started at `page` to return. -/
theorem listerLoop_some_of_stop (j : Nat) :
    ∀ (api : Nat → ApiResult (List MMChannel)) (page : Nat) (acc : List Channel)
      (reqs : Nat),
    pageStops api (page + j) →
    ∃ res, listerLoop api (j + 1) page acc reqs = some res := by
  induction j with
  | zero =>
    intro api page acc reqs hstop
    rcases hstop with ht | ⟨code, body, heq, hcb⟩
    · exact ⟨([], some .transport, reqs + 1), by
        rw [listerLoop, show api page = .transportError from by simpa using ht]⟩
    · have h0 : api page = .ok code body := by simpa using heq
      by_cases hc : code = 200
      · have hb : body = [] := by
          rcases hcb with h | h
          · exact absurd hc h
          · exact h
        exact ⟨(acc, none, reqs + 1), by
          rw [listerLoop, h0]
          dsimp only
          rw [if_neg (by simp [hc]), if_pos (by simp [hb])]⟩
      · exact ⟨([], some .badStatus, reqs + 1), by
          rw [listerLoop, h0]
          dsimp only
          rw [if_pos (by simp [hc])]⟩
  | succ j ih =>
    intro api page acc reqs hstop
    match hapi : api page with
    | .transportError =>
      exact ⟨([], some .transport, reqs + 1), by rw [listerLoop, hapi]⟩
    | .ok code body =>
      by_cases hc : code = 200
      · by_cases hb : body = []
        · exact ⟨(acc, none, reqs + 1), by
            rw [listerLoop, hapi]
            dsimp only
            rw [if_neg (by simp [hc]), if_pos (by simp [hb])]⟩
        · have := ih api (page + 1) (acc ++ body.map channelOf) (reqs + 1)
            (by rw [show page + 1 + j = page + (j + 1) from by omega]; exact hstop)
          rcases this with ⟨res, hres⟩
          exact ⟨res, by
            rw [listerLoop, hapi]
            dsimp only
            rw [if_neg (by simp [hc]), if_neg (by simp [List.isEmpty_iff, hb])]
            exact hres⟩
      · exact ⟨([], some .badStatus, reqs + 1), by
          rw [listerLoop, hapi]
          dsimp only
          rw [if_pos (by simp [hc])]⟩

/-- C2: every record the member collector outputs originates from an
account whose deactivation timestamp is zero — for every channel list,
membership-page sequence and bot flag, no deactivated account's record
ever appears in the output. -/
theorem collector_never_outputs_deactivated
    (api : String → Nat → ApiResult (List MMUser)) (incl : Bool)
    (channels : List Channel) (fuel : Nat) (out : List User) (oe : Option ApiError)
    (u : User) (hrun : collectUsers api incl channels fuel = some (out, oe))
    (hu : u ∈ out) :
    ∃ ch ∈ channels, ∃ page code body mmu,
      api ch.ID page = .ok code body ∧ mmu ∈ body ∧ mmu.DeleteAt = 0 ∧
      u = convertUser ch.Name mmu := by
  have := getUsersInChannels_mem api incl fuel channels [] out oe hrun u hu
  rcases this with habs | ⟨ch, hch, page, code, body, mmu, hapi, hmem, hkeep, heq⟩
  · simp at habs
  · exact ⟨ch, hch, page, code, body, mmu, hapi, hmem,
      (keepUser_spec incl mmu hkeep).1, heq⟩

/-- An active human account used in the witnesses. -/
def aliceMM : MMUser := ⟨"u1", "alice", "alice@x", "A", "L", "al", 0, false⟩

/-- A deactivated account (`DeleteAt = 5`) used in the C2 witness. -/
def bobMM : MMUser := ⟨"u2", "bob", "bob@x", "B", "M", "", 5, false⟩

/-- An active bot account used in the C3 witness. -/
def botMM : MMUser := ⟨"u3", "hook", "hook@x", "", "", "", 0, true⟩

/-- Membership table for the C2 witness: one page holding an active and
a deactivated account. -/
def c2Tbl : String → List (List MMUser) := fun _ => [[aliceMM, bobMM]]

/-- Channel list for the C2/C3 witnesses. -/
def c2Channels : List Channel := [⟨"cid1", "general"⟩]

/-- Witness for C2: in a concrete run, the one record that appears is
sourced from the active account. -/
theorem collector_never_outputs_deactivated_witness :
    ∃ ch ∈ c2Channels, ∃ page code body mmu,
      usersTableApi c2Tbl ch.ID page = .ok code body ∧ mmu ∈ body ∧ mmu.DeleteAt = 0 ∧
      convertUser "general" aliceMM = convertUser ch.Name mmu :=
  collector_never_outputs_deactivated (usersTableApi c2Tbl) false c2Channels 2
    [convertUser "general" aliceMM] none (convertUser "general" aliceMM)
    (by decide) (by decide)

/-- C3: for a remote whose membership pages all succeed, an active bot
account occurring on some page of a channel appears in the collector's
output iff the bot-inclusion flag is true (account ids are assumed to
identify accounts, as they do on the platform). -/
theorem collector_bots_iff_flag (tbl : String → List (List MMUser))
    (channels : List Channel) (incl : Bool) (fuel : Nat) (ch : Channel) (mmu : MMUser)
    (hne : ∀ c ∈ channels, ∀ p ∈ tbl c.ID, p ≠ [])
    (hfuel : ∀ c ∈ channels, (tbl c.ID).length < fuel)
    (hch : ch ∈ channels)
    (hocc : ∃ p ∈ tbl ch.ID, mmu ∈ p)
    (hactive : mmu.DeleteAt = 0)
    (hbot : mmu.IsBot = true)
    (hid : ∀ c ∈ channels, ∀ p ∈ tbl c.ID, ∀ v ∈ p, v.Id = mmu.Id → v = mmu) :
    ∃ out, collectUsers (usersTableApi tbl) incl channels fuel = some (out, none) ∧
      (convertUser ch.Name mmu ∈ out ↔ incl = true) := by
  have hrun := getUsersInChannels_ok channels (usersTableApi tbl) tbl incl fuel []
    (fun c hc i => rfl) hne hfuel
  refine ⟨(channels.map
      (fun c => ((tbl c.ID).map (convertUsers c.Name incl)).flatten)).flatten,
    by simpa [collectUsers] using hrun, ?_⟩
  constructor
  · intro hmem
    rcases List.mem_flatten.mp hmem with ⟨l, hl, hin⟩
    rcases List.mem_map.mp hl with ⟨c, hc, rfl⟩
    rcases List.mem_flatten.mp hin with ⟨l2, hl2, hin2⟩
    rcases List.mem_map.mp hl2 with ⟨p, hp, rfl⟩
    rcases List.mem_map.mp hin2 with ⟨v, hvf, heq⟩
    rcases List.mem_filter.mp hvf with ⟨hv, hkeepv⟩
    have hvid : v.Id = mmu.Id := congrArg User.UserID heq
    have hveq : v = mmu := hid c hc p hp v hv hvid
    rw [hveq] at hkeepv
    cases incl with
    | true => rfl
    | false => simp [keepUser, hactive, hbot] at hkeepv
  · intro hincl
    subst hincl
    have hkeep : keepUser true mmu = true := by simp [keepUser, hactive]
    rcases hocc with ⟨p, hp, hmmu⟩
    refine List.mem_flatten.mpr ⟨((tbl ch.ID).map (convertUsers ch.Name true)).flatten,
      List.mem_map_of_mem _ hch, ?_⟩
    refine List.mem_flatten.mpr ⟨convertUsers ch.Name true p, List.mem_map_of_mem _ hp, ?_⟩
    exact List.mem_map.mpr ⟨mmu, List.mem_filter.mpr ⟨hmmu, hkeep⟩, rfl⟩

/-- Membership table for the C3 witness: one page with a human and an
active bot. -/
def c3Tbl : String → List (List MMUser) := fun _ => [[aliceMM, botMM]]

/-- Witness for C3: with the bot flag set, the concrete bot's record
appears in the output. -/
theorem collector_bots_iff_flag_witness :
    ∃ out, collectUsers (usersTableApi c3Tbl) true c2Channels 2 = some (out, none) ∧
      (convertUser (Channel.mk "cid1" "general").Name botMM ∈ out ↔ true = true) :=
  collector_bots_iff_flag c3Tbl c2Channels true 2 ⟨"cid1", "general"⟩ botMM
    (by decide) (by decide) (by decide) (by decide) (by decide) (by decide) (by decide)

/-- C4: if some page request fails (transport error or non-OK status),
the channel lister and the member collector each return an error with a
`nil` result: channels and records accumulated from earlier successful
pages — and, for the collector, from earlier channels — are not
returned to the caller. -/
theorem failure_aborts_without_partial_result
    (apiL : Nat → ApiResult (List MMChannel)) (jL fuelL : Nat)
    (hLpre : ∀ i < jL, ∃ body, apiL i = .ok 200 body ∧ body ≠ [])
    (hLfail : apiL jL = .transportError ∨
      ∃ code body, apiL jL = .ok code body ∧ code ≠ 200)
    (hLfuel : jL < fuelL)
    (apiU : String → Nat → ApiResult (List MMUser)) (tbl : String → List (List MMUser))
    (incl : Bool) (cs1 : List Channel) (ch : Channel) (cs2 : List Channel) (jU fuelU : Nat)
    (hU1 : ∀ c ∈ cs1, ∀ i, apiU c.ID i = .ok 200 ((tbl c.ID).getD i []))
    (hU2 : ∀ c ∈ cs1, ∀ p ∈ tbl c.ID, p ≠ [])
    (hU3 : ∀ c ∈ cs1, (tbl c.ID).length < fuelU)
    (hUpre : ∀ i < jU, ∃ body, apiU ch.ID i = .ok 200 body ∧ body ≠ [])
    (hUfail : apiU ch.ID jU = .transportError ∨
      ∃ code body, apiU ch.ID jU = .ok code body ∧ code ≠ 200)
    (hUfuel : jU < fuelU) :
    (∃ e, getPublicChannelsForTeam apiL fuelL = some ([], some e, jL + 1)) ∧
    (∃ e, collectUsers apiU incl (cs1 ++ ch :: cs2) fuelU = some ([], some e)) := by
  constructor
  · have := listerLoop_fail jL apiL 0 [] 0 fuelL
      (fun i hi => by simpa using hLpre i hi)
      (by simpa using hLfail) hLfuel
    simpa [getPublicChannelsForTeam] using this
  · exact getUsersInChannels_fail cs1 apiU tbl incl fuelU [] ch cs2 jU
      hU1 hU2 hU3 hUpre hUfail hUfuel

/-- Witness for C4: lister facing an immediate transport error; collector
facing a 500 status on its first channel's first page. -/
theorem failure_aborts_without_partial_result_witness :
    (∃ e, getPublicChannelsForTeam (fun _ => ApiResult.transportError) 1 =
      some ([], some e, 0 + 1)) ∧
    (∃ e, collectUsers (fun _ _ => ApiResult.ok 500 []) false
      (([] : List Channel) ++ Channel.mk "c" "n" :: []) 1 = some ([], some e)) :=
  failure_aborts_without_partial_result
    (fun _ => ApiResult.transportError) 0 1
    (fun i hi => absurd hi (Nat.not_lt_zero i)) (Or.inl rfl) (by decide)
    (fun _ _ => ApiResult.ok 500 []) (fun _ => []) false [] ⟨"c", "n"⟩ [] 0 1
    (fun c hc => absurd hc (List.not_mem_nil c))
    (fun c hc => absurd hc (List.not_mem_nil c))
    (fun c hc => absurd hc (List.not_mem_nil c))
    (fun i hi => absurd hi (Nat.not_lt_zero i))
    (Or.inr ⟨500, [], rfl, by decide⟩) (by decide)

/-- C8: the lister's pagination loop terminates iff some page request
eventually fails or returns zero channels; in particular, if every page
request succeeds with a non-empty page, the loop never returns. -/
theorem lister_terminates_iff_stop (api : Nat → ApiResult (List MMChannel)) :
    ((∃ fuel res, getPublicChannelsForTeam api fuel = some res) ↔
      ∃ n, pageStops api n) ∧
    ((∀ n, ¬ pageStops api n) → ∀ fuel, getPublicChannelsForTeam api fuel = none) := by
  constructor
  · constructor
    · rintro ⟨fuel, res, hres⟩
      by_contra hno
      push_neg at hno
      have : getPublicChannelsForTeam api fuel = none :=
        listerLoop_none_of_no_stop api hno fuel 0 [] 0
      rw [this] at hres
      exact Option.noConfusion hres
    · rintro ⟨n, hn⟩
      rcases listerLoop_some_of_stop n api 0 [] 0 (by simpa using hn) with ⟨res, hres⟩
      exact ⟨n + 1, res, hres⟩
  · intro hno fuel
    exact listerLoop_none_of_no_stop api hno fuel 0 [] 0

/-- C9: the team resolver, the channel lister and the member collector
each fail whenever the response status differs from exactly 200 — other
success-class statuses such as 201 or 204 are rejected too — while the
resolver succeeds on exactly 200. -/
theorem non_200_status_fails (code : Nat) (team : MMTeam) (chans : List MMChannel)
    (us : List MMUser) (ch : Channel) (incl : Bool) (hcode : code ≠ 200) :
    getTeamID (.ok code team) = ("", some .badStatus) ∧
    getTeamID (.ok 200 team) = (team.Id, none) ∧
    getPublicChannelsForTeam (fun _ => .ok code chans) 1 = some ([], some .badStatus, 1) ∧
    collectUsers (fun _ _ => .ok code us) incl [ch] 1 = some ([], some .badStatus) := by
  refine ⟨?_, ?_, ?_, ?_⟩
  · simp [getTeamID, hcode]
  · simp [getTeamID]
  · rw [getPublicChannelsForTeam, listerLoop]
    dsimp only
    rw [if_pos (by simp [hcode])]
  · rw [collectUsers, getUsersInChannels, usersLoop]
    dsimp only
    rw [if_pos (by simp [hcode])]

/-- Witness for C9 at status 201 (a success-class status that is still
rejected). -/
theorem non_200_status_fails_witness :
    getTeamID (.ok 201 ⟨"tid"⟩) = ("", some .badStatus) ∧
    getTeamID (.ok 200 ⟨"tid"⟩) = ((MMTeam.mk "tid").Id, none) ∧
    getPublicChannelsForTeam (fun _ => .ok 201 []) 1 = some ([], some .badStatus, 1) ∧
    collectUsers (fun _ _ => .ok 201 []) false [⟨"c", "n"⟩] 1 =
      some ([], some .badStatus) :=
  non_200_status_fails 201 ⟨"tid"⟩ [] [] ⟨"c", "n"⟩ false (by decide)

/-- Go's `append` on a possibly-nil slice: appending to a nil slice
allocates; the result is nil only if nothing was ever appended. -/
def goAppend {α : Type} (s : Option (List α)) (x : α) : Option (List α) :=
  match s with
  | none => some [x]
  | some xs => some (xs ++ [x])

/-- One step of `channelMap[user.ChannelName] = append(...)`: append `v`
to the entry of key `k` of the association-list model of the Go map,
inserting the key if absent. -/
def mapAppend (m : List (String × List User)) (k : String) (v : User) :
    List (String × List User) :=
  match m with
  | [] => [(k, [v])]
  | (k', vs) :: rest =>
    if k' = k then (k', vs ++ [v]) :: rest else (k', vs) :: mapAppend rest k v

/-- The `channelMap` built by the first loop of `outputJSON`: for each
user in input order, append it to its channel-name entry. -/
def buildChannelMap (users : List User) : List (String × List User) :=
  users.foldl (fun m u => mapAppend m u.ChannelName u) []

/-- Map lookup with the empty list as default. -/
def lookupD (m : List (String × List User)) (n : String) : List User :=
  match m with
  | [] => []
  | (k, vs) :: rest => if k = n then vs else lookupD rest n

/-- The key set of the association-list model of the Go map. -/
def mapKeys (m : List (String × List User)) : List String := m.map Prod.fst

/-- `ChannelWithUsers` struct of main.go. -/
structure ChannelWithUsers where
  ChannelName : String
  Users : List User
deriving DecidableEq, Repr

/-- An iteration order of the Go map `channelMap`: Go's `range` over a
map visits each key exactly once, in an unspecified order.  Any
`order` satisfying this predicate is a possible iteration order. -/
def validIterationOrder (users : List User) (order : List String) : Prop :=
  order.Nodup ∧ (∀ n ∈ order, n ∈ mapKeys (buildChannelMap users)) ∧
    (∀ n ∈ mapKeys (buildChannelMap users), n ∈ order)

/-- The `output.Channels` slice built by the second loop of
`outputJSON`, for a given map iteration order: starts nil, appends one
group per visited key. -/
def outputJSONChannels (users : List User) (order : List String) :
    Option (List ChannelWithUsers) :=
  order.foldl (fun acc n => goAppend acc ⟨n, lookupD (buildChannelMap users) n⟩) none

/-- The channel groups of the JSON output (nil slice read as empty). -/
def jsonGroups (users : List User) (order : List String) : List ChannelWithUsers :=
  (outputJSONChannels users order).getD []

/-- First-seen order of the distinct channel names of the input. -/
def insertName (acc : List String) (n : String) : List String :=
  if n ∈ acc then acc else acc ++ [n]

/-- The distinct channel names of the input, in first-seen order. -/
def firstSeenNames (users : List User) : List String :=
  users.foldl (fun acc u => insertName acc u.ChannelName) []

theorem foldl_goAppend_some (g : String → ChannelWithUsers) (order : List String) :
    ∀ xs, order.foldl (fun acc n => goAppend acc (g n)) (some xs) =
      some (xs ++ order.map g) := by
  induction order with
  | nil => intro xs; simp
  | cons n rest ih =>
    intro xs
    rw [List.foldl_cons]
    show List.foldl _ (goAppend (some xs) (g n)) rest = _
    rw [show goAppend (some xs) (g n) = some (xs ++ [g n]) from rfl]
    rw [ih]
    simp

/-- The groups of the JSON output are one per name of the iteration
order, each holding that name's map entry. -/
theorem jsonGroups_eq (users : List User) (order : List String) :
    jsonGroups users order =
      order.map (fun n => ⟨n, lookupD (buildChannelMap users) n⟩) := by
  cases order with
  | nil => rfl
  | cons n rest =>
    rw [jsonGroups, outputJSONChannels, List.foldl_cons]
    show (List.foldl _ (goAppend none _) rest).getD [] = _
    rw [show goAppend none (⟨n, lookupD (buildChannelMap users) n⟩ : ChannelWithUsers) =
      some [⟨n, lookupD (buildChannelMap users) n⟩] from rfl]
    rw [foldl_goAppend_some (fun n => ⟨n, lookupD (buildChannelMap users) n⟩) rest]
    simp

theorem lookupD_mapAppend (k : String) (v : User) (n : String) :
    ∀ m : List (String × List User),
    lookupD (mapAppend m k v) n =
      if k = n then lookupD m n ++ [v] else lookupD m n := by
  intro m
  induction m with
  | nil =>
    by_cases h : k = n <;> simp [mapAppend, lookupD, h]
  | cons kv rest ih =>
    obtain ⟨k', vs⟩ := kv
    by_cases h1 : k' = k
    · subst h1
      by_cases h2 : k' = n
      · subst h2
        simp [mapAppend, lookupD]
      · simp [mapAppend, lookupD, h2, if_neg (fun hc => h2 hc)]
    · by_cases h2 : k' = n
      · subst h2
        have hk : ¬ k = k' := fun hc => h1 hc.symm
        simp [mapAppend, lookupD, h1, hk]
      · simp [mapAppend, lookupD, h1, h2, ih]

theorem lookupD_foldl (n : String) :
    ∀ (users : List User) (m : List (String × List User)),
    lookupD (users.foldl (fun m u => mapAppend m u.ChannelName u) m) n =
      lookupD m n ++ users.filter (fun u => u.ChannelName == n) := by
  intro users
  induction users with
  | nil => intro m; simp
  | cons u us ih =>
    intro m
    rw [List.foldl_cons, ih]
    rw [lookupD_mapAppend]
    by_cases h : u.ChannelName = n
    · rw [if_pos h]
      rw [List.filter_cons_of_pos (by simpa using h)]
      simp
    · rw [if_neg h]
      rw [List.filter_cons_of_neg (by simpa using h)]

/-- The map entry of a channel name holds exactly the input records with
that channel name, in input order. -/
theorem lookupD_buildChannelMap (users : List User) (n : String) :
    lookupD (buildChannelMap users) n = users.filter (fun u => u.ChannelName == n) := by
  rw [buildChannelMap, lookupD_foldl]
  rfl

theorem mem_mapKeys_mapAppend (k : String) (v : User) (a : String) :
    ∀ m : List (String × List User),
    (a ∈ mapKeys (mapAppend m k v) ↔ a ∈ mapKeys m ∨ a = k) := by
  intro m
  induction m with
  | nil => simp [mapAppend, mapKeys]
  | cons kv rest ih =>
    obtain ⟨k', vs⟩ := kv
    by_cases h1 : k' = k
    · subst h1
      rw [show mapAppend ((k', vs) :: rest) k' v = (k', vs ++ [v]) :: rest from by
        simp [mapAppend]]
      simp only [mapKeys, List.map_cons, List.mem_cons]
      constructor
      · rintro (h | h)
        · exact Or.inl (Or.inl h)
        · exact Or.inl (Or.inr h)
      · rintro ((h | h) | h)
        · exact Or.inl h
        · exact Or.inr h
        · rw [h]; exact Or.inl rfl
    · simp only [mapAppend, if_neg h1, mapKeys, List.map_cons, List.mem_cons]
      rw [show (List.map Prod.fst (mapAppend rest k v)) = mapKeys (mapAppend rest k v) from rfl]
      rw [ih]
      constructor
      · rintro (h | h | h)
        · exact Or.inl (Or.inl h)
        · exact Or.inl (Or.inr h)
        · exact Or.inr h
      · rintro ((h | h) | h)
        · exact Or.inl h
        · exact Or.inr (Or.inl h)
        · exact Or.inr (Or.inr h)

theorem mem_mapKeys_foldl (a : String) :
    ∀ (users : List User) (m : List (String × List User)),
    (a ∈ mapKeys (users.foldl (fun m u => mapAppend m u.ChannelName u) m) ↔
      a ∈ mapKeys m ∨ a ∈ users.map User.ChannelName) := by
  intro users
  induction users with
  | nil => intro m; simp
  | cons u us ih =>
    intro m
    rw [List.foldl_cons, ih, mem_mapKeys_mapAppend]
    simp only [List.map_cons, List.mem_cons]
    constructor
    · rintro ((h | h) | h)
      · exact Or.inl h
      · exact Or.inr (Or.inl h)
      · exact Or.inr (Or.inr h)
    · rintro (h | h | h)
      · exact Or.inl (Or.inl h)
      · exact Or.inl (Or.inr h)
      · exact Or.inr h

/-- A name is a key of the channel map iff it is some input record's
channel name. -/
theorem mem_mapKeys_buildChannelMap (users : List User) (a : String) :
    a ∈ mapKeys (buildChannelMap users) ↔ a ∈ users.map User.ChannelName := by
  rw [buildChannelMap, mem_mapKeys_foldl]
  simp [mapKeys]

theorem mem_insertName (acc : List String) (n a : String) :
    a ∈ insertName acc n ↔ a ∈ acc ∨ a = n := by
  unfold insertName
  by_cases h : n ∈ acc
  · rw [if_pos h]
    constructor
    · exact Or.inl
    · rintro (h1 | h1)
      · exact h1
      · rw [h1]; exact h
  · rw [if_neg h]
    simp

theorem nodup_insertName (acc : List String) (n : String) (h : acc.Nodup) :
    (insertName acc n).Nodup := by
  unfold insertName
  by_cases hm : n ∈ acc
  · rw [if_pos hm]; exact h
  · rw [if_neg hm]
    rw [show acc ++ [n] = acc.concat n from (List.concat_eq_append acc n).symm]
    exact List.Nodup.concat hm h

theorem mem_firstSeen_foldl (a : String) :
    ∀ (users : List User) (acc : List String),
    (a ∈ users.foldl (fun acc u => insertName acc u.ChannelName) acc ↔
      a ∈ acc ∨ a ∈ users.map User.ChannelName) := by
  intro users
  induction users with
  | nil => intro acc; simp
  | cons u us ih =>
    intro acc
    rw [List.foldl_cons, ih, mem_insertName]
    simp only [List.map_cons, List.mem_cons]
    constructor
    · rintro ((h | h) | h)
      · exact Or.inl h
      · exact Or.inr (Or.inl h)
      · exact Or.inr (Or.inr h)
    · rintro (h | h | h)
      · exact Or.inl (Or.inl h)
      · exact Or.inl (Or.inr h)
      · exact Or.inr h

theorem nodup_firstSeen_foldl :
    ∀ (users : List User) (acc : List String), acc.Nodup →
    (users.foldl (fun acc u => insertName acc u.ChannelName) acc).Nodup := by
  intro users
  induction users with
  | nil => intro acc h; exact h
  | cons u us ih =>
    intro acc h
    rw [List.foldl_cons]
    exact ih _ (nodup_insertName acc u.ChannelName h)

/-- Membership in the first-seen name list is membership among the
input's channel names. -/
theorem mem_firstSeenNames (users : List User) (a : String) :
    a ∈ firstSeenNames users ↔ a ∈ users.map User.ChannelName := by
  rw [firstSeenNames, mem_firstSeen_foldl]
  simp

theorem nodup_firstSeenNames (users : List User) : (firstSeenNames users).Nodup :=
  nodup_firstSeen_foldl users [] List.nodup_nil

instance (users : List User) (order : List String) :
    Decidable (validIterationOrder users order) := by
  unfold validIterationOrder
  infer_instance

theorem sum_map_add_nat (l : List String) (f g : String → Nat) :
    (l.map (fun n => f n + g n)).sum = (l.map f).sum + (l.map g).sum := by
  induction l with
  | nil => rfl
  | cons a l ih =>
    simp only [List.map_cons, List.sum_cons, ih]
    omega

theorem sum_map_indicator (l : List String) (c : String) :
    (l.map (fun n => if c = n then 1 else 0)).sum = l.count c := by
  induction l with
  | nil => rfl
  | cons a l ih =>
    by_cases h : c = a
    · subst h
      simp [List.count_cons, ih]
      omega
    · simp [List.count_cons, h, Ne.symm h, ih]

/-- Summing, over a duplicate-free list of names covering all input
records, the number of records carrying each name gives the total record
count. -/
theorem sum_group_lengths (order : List String) (hnd : order.Nodup) :
    ∀ users : List User, (∀ u ∈ users, u.ChannelName ∈ order) →
    (order.map (fun n => (users.filter (fun u => u.ChannelName == n)).length)).sum =
      users.length := by
  intro users
  induction users with
  | nil =>
    intro _
    have h0 : order.map
        (fun n => (List.filter (fun u => u.ChannelName == n) ([] : List User)).length) =
        order.map (fun _ => 0) := by
      simp
    rw [h0]
    simp
  | cons u us ih =>
    intro hcov
    have h1 : order.map
        (fun n => (List.filter (fun v => v.ChannelName == n) (u :: us)).length) =
        order.map (fun n =>
          (if u.ChannelName = n then 1 else 0) +
            (List.filter (fun v => v.ChannelName == n) us).length) := by
      apply List.map_congr_left
      intro n hn
      by_cases h : u.ChannelName = n
      · rw [List.filter_cons_of_pos (by simpa using h), if_pos h]
        simp only [List.length_cons]
        omega
      · rw [List.filter_cons_of_neg (by simpa using h), if_neg h]
        omega
    rw [h1, sum_map_add_nat, sum_map_indicator,
      List.count_eq_one_of_mem hnd (hcov u (by simp)),
      ih (fun v hv => hcov v (by simp [hv]))]
    simp [Nat.add_comm]

/-- C6: for any possible map iteration order, every input record lies in
exactly one channel group, the group it lies in carries the record's
channel name, and the group sizes sum to the input size. -/
theorem json_groups_partition (users : List User) (order : List String)
    (h : validIterationOrder users order) :
    (∀ u ∈ users,
      (∃! g, g ∈ jsonGroups users order ∧ u ∈ g.Users) ∧
      (∀ g ∈ jsonGroups users order, u ∈ g.Users → g.ChannelName = u.ChannelName)) ∧
    ((jsonGroups users order).map (fun g => g.Users.length)).sum = users.length := by
  obtain ⟨hnd, hsub, hcov⟩ := h
  have hgroups := jsonGroups_eq users order
  constructor
  · intro u hu
    have hname : u.ChannelName ∈ order :=
      hcov _ ((mem_mapKeys_buildChannelMap users _).mpr (List.mem_map_of_mem _ hu))
    have hnameOf : ∀ g ∈ jsonGroups users order, u ∈ g.Users →
        g.ChannelName = u.ChannelName := by
      intro g hg hgu
      rw [hgroups] at hg
      rcases List.mem_map.mp hg with ⟨n, hn, rfl⟩
      show n = u.ChannelName
      have hmem : u ∈ lookupD (buildChannelMap users) n := hgu
      rw [lookupD_buildChannelMap] at hmem
      have := (List.mem_filter.mp hmem).2
      exact (by simpa using this : u.ChannelName = n).symm
    refine ⟨⟨⟨u.ChannelName, lookupD (buildChannelMap users) u.ChannelName⟩,
      ⟨?_, ?_⟩, ?_⟩, hnameOf⟩
    · rw [hgroups]
      exact List.mem_map_of_mem _ hname
    · show u ∈ lookupD (buildChannelMap users) u.ChannelName
      rw [lookupD_buildChannelMap]
      exact List.mem_filter.mpr ⟨hu, by simp⟩
    · rintro g ⟨hg, hgu⟩
      have hn := hnameOf g hg hgu
      rw [hgroups] at hg
      rcases List.mem_map.mp hg with ⟨n, hnmem, rfl⟩
      have : n = u.ChannelName := hn
      rw [this]
  · rw [hgroups]
    rw [List.map_map]
    have h2 : order.map
        ((fun g : ChannelWithUsers => g.Users.length) ∘
          (fun n => ⟨n, lookupD (buildChannelMap users) n⟩)) =
        order.map (fun n => (users.filter (fun u => u.ChannelName == n)).length) := by
      apply List.map_congr_left
      intro n hn
      show (lookupD (buildChannelMap users) n).length = _
      rw [lookupD_buildChannelMap]
    rw [h2]
    exact sum_group_lengths order hnd users
      (fun u hu => hcov _ ((mem_mapKeys_buildChannelMap users _).mpr
        (List.mem_map_of_mem _ hu)))

/-- Input records for the C6 witness. -/
def c6Users : List User :=
  [⟨"general", "u1", "alice", "", "", "", ""⟩,
   ⟨"random", "u2", "bob", "", "", "", ""⟩,
   ⟨"general", "u3", "carol", "", "", "", ""⟩]

/-- A valid (non-first-seen) iteration order for the C6 witness. -/
def c6Order : List String := ["random", "general"]

/-- Witness for C6: the group sizes of a concrete run sum to the input
size. -/
theorem json_groups_partition_witness :
    ((jsonGroups c6Users c6Order).map (fun g => g.Users.length)).sum =
      c6Users.length :=
  (json_groups_partition c6Users c6Order (by decide)).2

/-- Input records for the C7 counterexample: channel `beta` is seen
first. -/
def c7Users : List User :=
  [⟨"beta", "u1", "x", "", "", "", ""⟩, ⟨"alpha", "u2", "y", "", "", "", ""⟩]

/-- An iteration order the Go map may legitimately produce, which is not
the first-seen order. -/
def c7Order : List String := ["alpha", "beta"]

/-- C7 counterexample: `["alpha", "beta"]` is a valid iteration order of
the map built from `c7Users`, yet the resulting group order differs from
the first-seen order `["beta", "alpha"]` — the serializer does not
guarantee first-seen group order. -/
theorem json_group_order_not_first_seen :
    validIterationOrder c7Users c7Order ∧
    (jsonGroups c7Users c7Order).map (fun g => g.ChannelName) ≠
      firstSeenNames c7Users := by
  constructor
  · decide
  · decide

/-- C7 (amended): the channel groups appear in some order enumerating
the distinct channel names exactly once — a permutation of the
first-seen order, not necessarily that order itself — and within each
group the records keep their input order (each group's record list is a
sublist of the input). -/
theorem json_groups_order_perm_and_stable (users : List User) (order : List String)
    (h : validIterationOrder users order) :
    ((jsonGroups users order).map (fun g => g.ChannelName)).Perm
      (firstSeenNames users) ∧
    (∀ g ∈ jsonGroups users order, g.Users.Sublist users) := by
  obtain ⟨hnd, hsub, hcov⟩ := h
  constructor
  · have hmap : (jsonGroups users order).map (fun g => g.ChannelName) = order := by
      rw [jsonGroups_eq, List.map_map]
      have hcomp : ((fun g : ChannelWithUsers => g.ChannelName) ∘
          fun n => (⟨n, lookupD (buildChannelMap users) n⟩ : ChannelWithUsers)) = id := by
        funext n
        rfl
      rw [hcomp, List.map_id]
    rw [hmap]
    rw [List.perm_ext_iff_of_nodup hnd (nodup_firstSeenNames users)]
    intro a
    rw [mem_firstSeenNames]
    constructor
    · intro ha
      exact (mem_mapKeys_buildChannelMap users a).mp (hsub a ha)
    · intro ha
      exact hcov a ((mem_mapKeys_buildChannelMap users a).mpr ha)
  · intro g hg
    rw [jsonGroups_eq] at hg
    rcases List.mem_map.mp hg with ⟨n, hn, rfl⟩
    show (lookupD (buildChannelMap users) n).Sublist users
    rw [lookupD_buildChannelMap]
    exact List.filter_sublist users

/-- Witness for the amended C7 at a concrete input. -/
theorem json_groups_order_perm_and_stable_witness :
    ((jsonGroups c7Users c7Order).map (fun g => g.ChannelName)).Perm
      (firstSeenNames c7Users) :=
  (json_groups_order_perm_and_stable c7Users c7Order (by decide)).1

/-- A JSON document, as produced by `encoding/json`. -/
inductive JsonValue where
  | null : JsonValue
  | str : String → JsonValue
  | arr : List JsonValue → JsonValue
  | obj : List (String × JsonValue) → JsonValue

/-- JSON encoding of one `User` record (struct fields in declaration
order, default field names). -/
def encodeUser (u : User) : JsonValue :=
  .obj [("ChannelName", .str u.ChannelName), ("UserID", .str u.UserID),
        ("Username", .str u.Username), ("Email", .str u.Email),
        ("FirstName", .str u.FirstName), ("LastName", .str u.LastName),
        ("Nickname", .str u.Nickname)]

/-- JSON encoding of one `JSONChannel` wrapper (tag `Channel`) holding a
`ChannelWithUsers` (tags `ChannelName`, `Users`). -/
def encodeGroup (c : ChannelWithUsers) : JsonValue :=
  .obj [("Channel", .obj [("ChannelName", .str c.ChannelName),
    ("Users", .arr (c.Users.map encodeUser))])]

/-- `encoding/json` marshals a nil slice as `null` and a non-nil slice
as an array. -/
def encodeChannelsSlice : Option (List ChannelWithUsers) → JsonValue
  | none => .null
  | some cs => .arr (cs.map encodeGroup)

/-- `outputJSON` of main.go as a document: the `JSONOutput` struct with
its `Channels` slice, marshalled. -/
def outputJSON (users : List User) (order : List String) : JsonValue :=
  .obj [("Channels", encodeChannelsSlice (outputJSONChannels users order))]

/-- C10: for the empty record list the only possible map iteration order
is empty, the serializer emits a document whose `Channels` field is JSON
`null` (the group slice is never appended to, so it stays nil), and this
differs from an empty array of groups. -/
theorem empty_input_json_null_channels :
    outputJSON [] [] = .obj [("Channels", .null)] ∧
    outputJSON [] [] ≠ .obj [("Channels", .arr [])] ∧
    (∀ order, validIterationOrder [] order → order = []) := by
  have h1 : outputJSON [] [] = JsonValue.obj [("Channels", JsonValue.null)] := rfl
  refine ⟨h1, ?_, ?_⟩
  · rw [h1]
    intro hcontra
    injection hcontra with hfields
    injection hfields with hhead _
    injection hhead with _ hval
    exact JsonValue.noConfusion hval
  · intro order hord
    rcases hord with ⟨_, hsub, _⟩
    cases order with
    | nil => rfl
    | cons n rest =>
      have := hsub n (by simp)
      simp [buildChannelMap, mapKeys] at this

/-- The double-quote character. -/
def dquote : Char := Char.ofNat 34

/-- Line feed, the record terminator `csv.Writer` emits with
`UseCRLF = false` (the default `outputCSV` uses). -/
def lf : Char := Char.ofNat 10

/-- Carriage return. -/
def cr : Char := Char.ofNat 13

/-- The default field delimiter of `encoding/csv`. -/
def comma : Char := ','

/-- Go's `unicode.IsSpace`, over the code points it accepts. -/
def goIsSpace (c : Char) : Bool :=
  c == ' ' || c == Char.ofNat 9 || c == lf || c == Char.ofNat 11 ||
  c == Char.ofNat 12 || c == cr || c == Char.ofNat 133 || c == Char.ofNat 160 ||
  c == Char.ofNat 5760 || (8192 ≤ c.toNat && c.toNat ≤ 8202) ||
  c == Char.ofNat 8232 || c == Char.ofNat 8233 || c == Char.ofNat 8239 ||
  c == Char.ofNat 8287 || c == Char.ofNat 12288

/-- A character that forces quoting: the delimiter, the quote, CR or
LF. -/
def isCsvSpecial (c : Char) : Bool := c == comma || c == dquote || c == cr || c == lf

/-- `fieldNeedsQuotes` of `encoding/csv` with the default comma
delimiter: the empty field is unquoted; the literal `\.` is quoted;
fields containing a delimiter, quote, CR or LF are quoted; fields whose
first character is white space are quoted. -/
def fieldNeedsQuotes (f : List Char) : Bool :=
  match f with
  | [] => false
  | c :: cs =>
    if c :: cs = ['\\', '.'] then true
    else if (c :: cs).any isCsvSpecial then true
    else goIsSpace c

/-- Body of a quoted field as `csv.Writer` writes it with
`UseCRLF = false`: quotes doubled, every other character — CR and LF
included — copied unchanged. -/
def escapeQuoted (f : List Char) : List Char :=
  (f.map (fun c => if c = dquote then [dquote, dquote] else [c])).flatten

theorem escapeQuoted_nil : escapeQuoted [] = [] := rfl

theorem escapeQuoted_cons (a : Char) (f : List Char) :
    escapeQuoted (a :: f) =
      (if a = dquote then [dquote, dquote] else [a]) ++ escapeQuoted f := by
  simp [escapeQuoted]

/-- One field as `csv.Writer` writes it: quoted with doubled quotes when
quoting is needed, verbatim otherwise. -/
def writeField (f : List Char) : List Char :=
  if fieldNeedsQuotes f then dquote :: (escapeQuoted f ++ [dquote]) else f

/-- The fields of one record joined with the delimiter (`n > 0` fields
get `n - 1` delimiters, as in the writer's loop). -/
def writeFields : List (List Char) → List Char
  | [] => []
  | [f] => writeField f
  | f :: g :: fs => writeField f ++ comma :: writeFields (g :: fs)

/-- One CSV record: the delimited fields plus the LF terminator. -/
def writeRecord (fs : List (List Char)) : List Char := writeFields fs ++ [lf]

/-- The fixed 7-column header of `outputCSV`. -/
def csvHeader : List (List Char) :=
  ["ChannelName".toList, "UserID".toList, "Username".toList, "Email".toList,
   "FirstName".toList, "LastName".toList, "Nickname".toList]

/-- The row `outputCSV` writes for one user record. -/
def userFields (u : User) : List (List Char) :=
  [u.ChannelName.toList, u.UserID.toList, u.Username.toList, u.Email.toList,
   u.FirstName.toList, u.LastName.toList, u.Nickname.toList]

/-- `outputCSV` of main.go: the text written out — the header record
followed by one record per user, in input order. -/
def outputCSV (users : List User) : List Char :=
  ((csvHeader :: users.map userFields).map writeRecord).flatten

/-- Character at which an unquoted field ends. -/
def isSep (c : Char) : Bool := c == comma || c == lf

/-- Reference parser for a quoted-field body: consumes up to the closing
quote, reading a doubled quote as one quote; fails on an unterminated
field. -/
def parseQuotedBody (input : List Char) : Option (List Char × List Char) :=
  match input with
  | [] => none
  | c :: cs =>
    if c = dquote then
      match cs with
      | [] => some ([], [])
      | c2 :: cs2 =>
        if c2 = dquote then
          match parseQuotedBody cs2 with
          | none => none
          | some (f, r) => some (dquote :: f, r)
        else some ([], c2 :: cs2)
    else
      match parseQuotedBody cs with
      | none => none
      | some (f, r) => some (c :: f, r)
termination_by input.length
decreasing_by
  all_goals simp
  all_goals omega

/-- Split one field off the input: a leading quote opens a quoted field;
otherwise the field extends to the next delimiter or LF. -/
def parseFieldAndAfter (input : List Char) : Option (List Char × List Char) :=
  match input with
  | [] => some ([], [])
  | c :: cs =>
    if c = dquote then parseQuotedBody cs
    else
      some ((c :: cs).takeWhile (fun x => !(isSep x)),
            (c :: cs).dropWhile (fun x => !(isSep x)))

/-- Parse one record: fields separated by the delimiter, terminated by
LF or the end of input.  The length guard makes the recursion visibly
terminating; it holds whenever a delimiter was consumed. -/
def parseRecord (input : List Char) : Option (List (List Char) × List Char) :=
  match parseFieldAndAfter input with
  | none => none
  | some (f, rest) =>
    match rest with
    | [] => some ([f], [])
    | c :: rest2 =>
      if c = lf then some ([f], rest2)
      else if c = comma then
        if h : rest2.length < input.length then
          match parseRecord rest2 with
          | none => none
          | some (fs, rest3) => some (f :: fs, rest3)
        else none
      else none
termination_by input.length

/-- Parse a record sequence up to the end of input. -/
def parseRecords (input : List Char) : Option (List (List (List Char))) :=
  match input with
  | [] => some []
  | c :: cs =>
    match parseRecord (c :: cs) with
    | none => none
    | some (fs, rest) =>
      if h : rest.length < (c :: cs).length then
        match parseRecords rest with
        | none => none
        | some rs => some (fs :: rs)
      else none
termination_by input.length

theorem span_sep (f : List Char) :
    ∀ rest : List Char,
    (∀ c ∈ f, isSep c = false) →
    (rest = [] ∨ ∃ c2 r2, rest = c2 :: r2 ∧ isSep c2 = true) →
    (f ++ rest).takeWhile (fun x => !(isSep x)) = f ∧
    (f ++ rest).dropWhile (fun x => !(isSep x)) = rest := by
  induction f with
  | nil =>
    intro rest hf hrest
    simp only [List.nil_append]
    rcases hrest with rfl | ⟨c2, r2, rfl, hc2⟩
    · simp
    · constructor
      · rw [List.takeWhile_cons]
        simp [hc2]
      · rw [List.dropWhile_cons]
        simp [hc2]
  | cons a f ih =>
    intro rest hf hrest
    have ha : isSep a = false := hf a (by simp)
    have hrec := ih rest (fun c hc => hf c (by simp [hc])) hrest
    constructor
    · rw [List.cons_append, List.takeWhile_cons]
      simp only [ha, Bool.not_false, if_pos]
      rw [hrec.1]
    · rw [List.cons_append, List.dropWhile_cons]
      simp only [ha, Bool.not_false, if_pos]
      exact hrec.2

theorem parseQuotedBody_escape (f : List Char) :
    ∀ rest : List Char, (rest = [] ∨ ∃ c2 r2, rest = c2 :: r2 ∧ c2 ≠ dquote) →
    parseQuotedBody (escapeQuoted f ++ (dquote :: rest)) = some (f, rest) := by
  induction f with
  | nil =>
    intro rest hrest
    rw [escapeQuoted_nil, List.nil_append]
    rw [parseQuotedBody.eq_def]
    dsimp only
    rw [if_pos rfl]
    rcases hrest with rfl | ⟨c2, r2, rfl, hc2⟩
    · rfl
    · dsimp only
      rw [if_neg hc2]
  | cons a f ih =>
    intro rest hrest
    rw [escapeQuoted_cons]
    by_cases ha : a = dquote
    · rw [if_pos ha, ha]
      rw [show ([dquote, dquote] ++ escapeQuoted f) ++ (dquote :: rest) =
        dquote :: dquote :: (escapeQuoted f ++ (dquote :: rest)) from by simp]
      rw [parseQuotedBody.eq_def]
      dsimp only
      rw [if_pos rfl, if_pos rfl]
      rw [ih rest hrest]
    · rw [if_neg ha]
      rw [show ([a] ++ escapeQuoted f) ++ (dquote :: rest) =
        a :: (escapeQuoted f ++ (dquote :: rest)) from by simp]
      rw [parseQuotedBody.eq_def]
      dsimp only
      rw [if_neg ha]
      rw [ih rest hrest]

/-- A field needing no quotes contains no separator and no quote. -/
theorem no_quotes_spec (f : List Char) (h : fieldNeedsQuotes f = false) :
    (∀ c ∈ f, isSep c = false) ∧ (∀ c ∈ f, c ≠ dquote) := by
  match f with
  | [] => exact ⟨fun c hc => absurd hc (List.not_mem_nil c), fun c hc => absurd hc (List.not_mem_nil c)⟩
  | c0 :: cs =>
    rw [fieldNeedsQuotes] at h
    by_cases hbs : c0 :: cs = ['\\', '.']
    · rw [if_pos hbs] at h
      exact absurd h (by simp)
    · rw [if_neg hbs] at h
      by_cases hany : (c0 :: cs).any isCsvSpecial
      · rw [if_pos hany] at h
        exact absurd h (by simp)
      · have hnospec : ∀ c ∈ c0 :: cs, isCsvSpecial c = false := by
          intro c hc
          by_contra hcon
          exact hany (List.any_eq_true.mpr ⟨c, hc, by
            cases hcs : isCsvSpecial c
            · exact absurd hcs hcon
            · rfl⟩)
        refine ⟨fun c hc => ?_, fun c hc => ?_⟩
        · have := hnospec c hc
          unfold isCsvSpecial at this
          unfold isSep
          cases h1 : c == comma
          · cases h2 : c == lf
            · rfl
            · rw [h1, h2] at this
              simp at this
          · rw [h1] at this
            simp at this
        · have := hnospec c hc
          intro hcd
          rw [hcd] at this
          unfold isCsvSpecial at this
          simp at this

theorem parseFieldAndAfter_write (f rest : List Char)
    (hrest : rest = [] ∨ (∃ r2, rest = comma :: r2) ∨ (∃ r2, rest = lf :: r2)) :
    parseFieldAndAfter (writeField f ++ rest) = some (f, rest) := by
  have hcd : comma ≠ dquote := by decide
  have hld : lf ≠ dquote := by decide
  have hrest' : rest = [] ∨ ∃ c2 r2, rest = c2 :: r2 ∧ c2 ≠ dquote := by
    rcases hrest with rfl | ⟨r2, rfl⟩ | ⟨r2, rfl⟩
    · exact Or.inl rfl
    · exact Or.inr ⟨comma, r2, rfl, hcd⟩
    · exact Or.inr ⟨lf, r2, rfl, hld⟩
  have hrestSep : rest = [] ∨ ∃ c2 r2, rest = c2 :: r2 ∧ isSep c2 = true := by
    rcases hrest with rfl | ⟨r2, rfl⟩ | ⟨r2, rfl⟩
    · exact Or.inl rfl
    · exact Or.inr ⟨comma, r2, rfl, by decide⟩
    · exact Or.inr ⟨lf, r2, rfl, by decide⟩
  by_cases hq : fieldNeedsQuotes f
  · rw [writeField, if_pos hq]
    rw [show (dquote :: (escapeQuoted f ++ [dquote])) ++ rest =
      dquote :: (escapeQuoted f ++ (dquote :: rest)) from by simp]
    rw [parseFieldAndAfter]
    rw [if_pos rfl]
    exact parseQuotedBody_escape f rest hrest'
  · rw [writeField, if_neg hq]
    have hspec := no_quotes_spec f (by
      cases hfq : fieldNeedsQuotes f
      · rfl
      · exact absurd hfq hq)
    match f with
    | [] =>
      rw [List.nil_append]
      rcases hrestSep with rfl | ⟨c2, r2, rfl, hc2⟩
      · rfl
      · have hc2d : c2 ≠ dquote := by
          rcases hrest' with h | ⟨c2', r2', heq, hne⟩
          · exact absurd h (by simp)
          · rw [List.cons.injEq] at heq
            rw [heq.1]
            exact hne
        rw [parseFieldAndAfter]
        rw [if_neg hc2d]
        rw [List.takeWhile_cons, List.dropWhile_cons]
        simp [hc2]
    | c0 :: cs =>
      have hc0 : c0 ≠ dquote := hspec.2 c0 (by simp)
      rw [List.cons_append, parseFieldAndAfter]
      rw [if_neg hc0]
      rw [show c0 :: (cs ++ rest) = (c0 :: cs) ++ rest from by simp]
      have hsp := span_sep (c0 :: cs) rest hspec.1 hrestSep
      rw [hsp.1, hsp.2]

theorem parseRecord_write (fs : List (List Char)) :
    ∀ tail : List Char, fs ≠ [] →
    parseRecord (writeFields fs ++ (lf :: tail)) = some (fs, tail) := by
  induction fs with
  | nil => intro tail h; exact absurd rfl h
  | cons f fs' ih =>
    intro tail _
    cases fs' with
    | nil =>
      rw [show writeFields [f] = writeField f from rfl]
      rw [parseRecord.eq_def]
      rw [parseFieldAndAfter_write f (lf :: tail) (Or.inr (Or.inr ⟨tail, rfl⟩))]
      dsimp only
      rw [if_pos rfl]
    | cons g fs'' =>
      rw [show writeFields (f :: g :: fs'') =
        writeField f ++ comma :: writeFields (g :: fs'') from rfl]
      rw [show (writeField f ++ comma :: writeFields (g :: fs'')) ++ (lf :: tail) =
        writeField f ++ (comma :: (writeFields (g :: fs'') ++ (lf :: tail))) from by simp]
      rw [parseRecord.eq_def]
      rw [parseFieldAndAfter_write f _ (Or.inr (Or.inl ⟨_, rfl⟩))]
      dsimp only
      rw [if_neg (by decide : ¬ comma = lf)]
      rw [if_pos rfl]
      rw [dif_pos (by
        simp only [List.length_append, List.length_cons]
        omega)]
      rw [ih tail (by simp)]

theorem parseRecords_step (fs : List (List Char)) (rest : List Char)
    (input : List Char) (hne : input ≠ [])
    (hrec : parseRecord input = some (fs, rest))
    (hlen : rest.length < input.length)
    (rs : List (List (List Char)))
    (hrest : parseRecords rest = some rs) :
    parseRecords input = some (fs :: rs) := by
  cases input with
  | nil => exact absurd rfl hne
  | cons c cs =>
    rw [parseRecords.eq_def]
    dsimp only
    rw [hrec]
    dsimp only
    rw [dif_pos hlen]
    rw [hrest]

theorem parseRecords_write (rows : List (List (List Char))) :
    (∀ r ∈ rows, r ≠ []) →
    parseRecords ((rows.map writeRecord).flatten) = some rows := by
  induction rows with
  | nil =>
    intro _
    rw [show (List.map writeRecord ([] : List (List (List Char)))).flatten =
      ([] : List Char) from rfl]
    rw [parseRecords.eq_def]
  | cons r rows' ih =>
    intro hne
    have hflat : ((r :: rows').map writeRecord).flatten =
        writeFields r ++ (lf :: (rows'.map writeRecord).flatten) := by
      simp [writeRecord]
    rw [hflat]
    refine parseRecords_step r ((rows'.map writeRecord).flatten) _ ?_ ?_ ?_ rows' ?_
    · simp
    · exact parseRecord_write r _ (hne r (by simp))
    · simp only [List.length_append, List.length_cons]
      omega
    · exact ih (fun q hq => hne q (by simp [hq]))

/-- C5: parsing the text `outputCSV` writes yields exactly the fixed
7-column header `ChannelName, UserID, Username, Email, FirstName,
LastName, Nickname` followed by one row per input record, in input
order, field-for-field equal to the records — the CSV round-trip. -/
theorem outputCSV_roundtrip (users : List User) :
    parseRecords (outputCSV users) = some (csvHeader :: users.map userFields) := by
  rw [outputCSV]
  apply parseRecords_write
  intro r hr
  rcases List.mem_cons.mp hr with rfl | hr2
  · simp [csvHeader]
  · rcases List.mem_map.mp hr2 with ⟨u, _, rfl⟩
    simp [userFields]

end MMChannelUsers
